import Mathlib

/-!
# The circular byte queue of the `cdd` character device

A shallow embedding of the queue of `PA2/cdd.c` (lines 11-68) and of the two
transfer handlers `dev_read` / `dev_write` (lines 175-220).

* The C globals `bufferD`, `frontP`, `backP`, `count` become the fields of an
  explicit state record `Queue`; every operation takes the state and returns
  the new one together with its C return value.
* The C `int`s are mathematical integers.  In every state reached with `get`
  guarded they stay between `-1` and the capacity, far inside the 32-bit
  range; without the guard only `count` can leave that band, one step per
  call.
* `bufferD` has cells `0 .. MAX-1` only.  An access outside that range is
  undefined in C; the embedding makes it explicit: the operation returns
  `none`.
* The macro `MAX` is a parameter `cap` of the operations.  The source fixes it
  to `MAX = 2000`; keeping it a parameter lets the same definitions run at the
  small capacities used in scenarios.
-/

namespace CDD

/-- One C `char`: the eight-bit pattern held by a cell of `bufferD`. -/
abbrev Byte := Fin 256

/-- Value of the macro `MAX` in the source (line 13). -/
def MAX : Int := 2000

/-- The four globals of the queue (lines 15-18). -/
structure Queue where
  /-- Cells of `static char bufferD[MAX]`; only indices `0 .. MAX-1` exist. -/
  bufferD : Int → Byte
  /-- Index of the next byte to hand out. -/
  frontP : Int
  /-- Index of the byte stored last. -/
  backP : Int
  /-- Number of bytes held. -/
  count : Int

/-- State at module load: zeroed storage, `frontP = 0`, `backP = -1`, `count = 0`. -/
def init : Queue :=
  { bufferD := fun _ => 0, frontP := 0, backP := -1, count := 0 }

/-- Lines 20-24: `return count == 0;`. -/
def isEmpty (s : Queue) : Bool :=
  s.count == 0

/-- Lines 26-30: `return count == MAX;`. -/
def isFull (cap : Int) (s : Queue) : Bool :=
  s.count == cap

/-- Lines 32-52.  When the queue is not full: reset `backP` to `-1` if it sits
on the last cell, pre-increment it, store `data` there, increment `count`,
return `1`.  When full: return `0`.  The result is `none` when the store
`bufferD[++backP]` would fall outside `0 .. cap-1`. -/
def add (cap : Int) (s : Queue) (data : Byte) : Option (Int × Queue) :=
  if !isFull cap s then
    let backP1 := if s.backP == cap - 1 then -1 else s.backP
    let backP2 := backP1 + 1
    if 0 ≤ backP2 ∧ backP2 < cap then
      some (1, { s with
        bufferD := Function.update s.bufferD backP2 data
        backP := backP2
        count := s.count + 1 })
    else
      none
  else
    some (0, s)

/-- Lines 54-66.  Read `bufferD[frontP]`, post-increment `frontP`, reset it to
`0` when it reaches `cap`, decrement `count`, return the byte.  There is no
emptiness test.  The result is `none` when the load `bufferD[frontP]` would
fall outside `0 .. cap-1`. -/
def get (cap : Int) (s : Queue) : Option (Byte × Queue) :=
  if 0 ≤ s.frontP ∧ s.frontP < cap then
    let data := s.bufferD s.frontP
    let frontP1 := s.frontP + 1
    let frontP2 := if frontP1 == cap then 0 else frontP1
    some (data, { s with frontP := frontP2, count := s.count - 1 })
  else
    none

/-- Loop of `dev_read` (lines 180-192) with `n` iterations left: `out` is what
has been copied to the user buffer so far (`buffer[0 .. i-1]`), `amountRead` the
running counter.  The loop leaves early when the queue is empty. -/
def dev_read_loop (cap : Int) : Nat → Queue → List Byte → Int → Option (Int × List Byte × Queue)
  | 0, s, out, amountRead => some (amountRead, out, s)
  | n + 1, s, out, amountRead =>
    if !isEmpty s then
      match get cap s with
      | none => none
      | some (data, s') => dev_read_loop cap n s' (out ++ [data]) (amountRead + 1)
    else
      some (amountRead, out, s)

/-- Lines 175-196: `dev_read` for a request of `len` bytes.  Returns
`amountRead`, the bytes written to the user buffer in index order, and the new
state. -/
def dev_read (cap : Int) (s : Queue) (len : Nat) : Option (Int × List Byte × Queue) :=
  dev_read_loop cap len s [] 0

/-- Loop of `dev_write` (lines 212-215) over the bytes not yet visited:
`amountWritten += add (buffer[i])` for each of them, to the end of the input. -/
def dev_write_loop (cap : Int) : List Byte → Queue → Int → Option (Int × Queue)
  | [], s, amountWritten => some (amountWritten, s)
  | b :: rest, s, amountWritten =>
    match add cap s b with
    | none => none
    | some (r, s') => dev_write_loop cap rest s' (amountWritten + r)

/-- Lines 206-220: `dev_write` on the user bytes `buffer` (`len` is the length
of the list).  Returns `amountWritten` and the new state.  The counters `i` and
`amountWritten` are C `int`s and stay in range for `len ≤ 2^31 - 1`. -/
def dev_write (cap : Int) (s : Queue) (buffer : List Byte) : Option (Int × Queue) :=
  dev_write_loop cap buffer s 0

/-! ## Logical content, invariant, reachable states, call sequences -/

/-- Bytes held by the queue, oldest first: the `count` cells
`bufferD[frontP], bufferD[(frontP+1) % cap], ...`. -/
def contents (cap : Int) (s : Queue) : List Byte :=
  (List.range s.count.toNat).map (fun i : Nat => s.bufferD ((s.frontP + (i : Int)) % cap))

/-- Representation invariant: `count` within `0 .. cap`, `frontP` within
`0 .. cap-1`, `backP` within `-1 .. cap-1`, and the cell after `backP` is the
cell `count` places after `frontP`, modulo `cap`. -/
def Inv (cap : Int) (s : Queue) : Prop :=
  0 ≤ s.count ∧ s.count ≤ cap ∧ 0 ≤ s.frontP ∧ s.frontP < cap ∧
    -1 ≤ s.backP ∧ s.backP < cap ∧ (s.backP + 1) % cap = (s.frontP + s.count) % cap

instance (cap : Int) (s : Queue) : Decidable (Inv cap s) := by
  unfold Inv; infer_instance

/-- States reached from `init` by calls of `add` and by calls of `get` made
when `isEmpty` is false (the guard of the only call site, line 182). -/
inductive Reachable (cap : Int) : Queue → Prop
  | start : Reachable cap init
  | step_add (s s' : Queue) (data : Byte) (r : Int) :
      Reachable cap s → add cap s data = some (r, s') → Reachable cap s'
  | step_get (s s' : Queue) (data : Byte) :
      Reachable cap s → isEmpty s = false → get cap s = some (data, s') → Reachable cap s'

/-- One queue call: `add (data)` or `get ()`. -/
inductive Op where
  | add (data : Byte)
  | get

/-- State after one call, with no guard on `get`. -/
def step (cap : Int) (s : Queue) : Op → Option Queue
  | Op.add data => (add cap s data).map Prod.snd
  | Op.get => (get cap s).map Prod.snd

/-- State after a finite sequence of calls, with no guard on `get`. -/
def run (cap : Int) : Queue → List Op → Option Queue
  | s, [] => some s
  | s, op :: ops =>
    match step cap s op with
    | none => none
    | some s' => run cap s' ops

/-- Calls `add` on each byte in turn; collects the return values. -/
def add_seq (cap : Int) : Queue → List Byte → Option (List Int × Queue)
  | s, [] => some ([], s)
  | s, b :: bs =>
    match add cap s b with
    | none => none
    | some (r, s1) =>
      match add_seq cap s1 bs with
      | none => none
      | some (rs, s2) => some (r :: rs, s2)

/-- Calls `get` `n` times in a row; collects the returned bytes. -/
def get_seq (cap : Int) : Queue → Nat → Option (List Byte × Queue)
  | s, 0 => some ([], s)
  | s, n + 1 =>
    match get cap s with
    | none => none
    | some (d, s1) =>
      match get_seq cap s1 n with
      | none => none
      | some (ds, s2) => some (d :: ds, s2)

/-- Calls `dev_write` on each input in turn; collects the return values. -/
def dev_write_seq (cap : Int) : Queue → List (List Byte) → Option (List Int × Queue)
  | s, [] => some ([], s)
  | s, w :: ws =>
    match dev_write cap s w with
    | none => none
    | some (k, s1) =>
      match dev_write_seq cap s1 ws with
      | none => none
      | some (ks, s2) => some (k :: ks, s2)

/-- Calls `dev_read` with each length in turn; collects the byte lists handed
to the user. -/
def dev_read_seq (cap : Int) : Queue → List Nat → Option (List (List Byte) × Queue)
  | s, [] => some ([], s)
  | s, r :: rs =>
    match dev_read cap s r with
    | none => none
    | some (_, out, s1) =>
      match dev_read_seq cap s1 rs with
      | none => none
      | some (outs, s2) => some (out :: outs, s2)

/-- The part of each input that a `dev_write` call took: its first `k` bytes,
`k` being the value that call returned. -/
def acceptedParts (ws : List (List Byte)) (ks : List Int) : List (List Byte) :=
  List.zipWith (fun w k => w.take k.toNat) ws ks

/-- Closed form of the state after an accepted `add`: `backP` advanced modulo
`cap`, `b` stored there, `count` one more. -/
def added (cap : Int) (s : Queue) (b : Byte) : Queue :=
  { s with
    bufferD := Function.update s.bufferD ((s.backP + 1) % cap) b
    backP := (s.backP + 1) % cap
    count := s.count + 1 }

/-- Closed form of the state after `get`: `frontP` advanced modulo `cap`,
`count` one less. -/
def got (cap : Int) (s : Queue) : Queue :=
  { s with frontP := (s.frontP + 1) % cap, count := s.count - 1 }

/-- Number of bytes a write of `len` bytes gets into the queue:
`min (len, cap - count)`. -/
def acceptedCount (cap : Int) (s : Queue) (len : Nat) : Int :=
  min (len : Int) (cap - s.count)

/-- Number of bytes a read of `len` bytes gets out of the queue:
`min (len, count)`. -/
def readCount (s : Queue) (len : Nat) : Nat :=
  min len s.count.toNat

/-- A full queue at the source capacity, used to instantiate statements. -/
def fullSample : Queue :=
  { bufferD := fun _ => 7, frontP := 5, backP := 4, count := 2000 }

/-- A queue whose `backP` sits on the last cell, with room left. -/
def backAtEndSample : Queue :=
  { bufferD := fun _ => 7, frontP := 5, backP := 1999, count := 3 }

/-- A queue whose `frontP` sits on the last cell, which holds byte `42`. -/
def frontAtEndSample : Queue :=
  { bufferD := fun i => if i = 1999 then 42 else 7, frontP := 1999, backP := 4, count := 6 }

/-- The queue of capacity 4 after `add (1)` and `add (2)` from `init`. -/
def twoBytesSample : Queue :=
  added 4 (added 4 init 1) 2

/-- The queue of capacity 2 after `add 1, add 2, get, get, add 3, add 4, get,
get, add 5`: `backP` and `frontP` have each gone past the last cell twice. -/
def wrappedSample : Queue :=
  added 2 (got 2 (got 2 (added 2 (added 2 (got 2 (got 2 (added 2 (added 2 init 1) 2))) 3) 4))) 5

/-- States reached from `init` through the device interface only: by calls of
`dev_write` and of `dev_read`. -/
inductive DevReachable (cap : Int) : Queue → Prop
  | start : DevReachable cap init
  | step_write (s s' : Queue) (buffer : List Byte) (r : Int) :
      DevReachable cap s → dev_write cap s buffer = some (r, s') → DevReachable cap s'
  | step_read (s s' : Queue) (len : Nat) (r : Int) (out : List Byte) :
      DevReachable cap s → dev_read cap s len = some (r, out, s') → DevReachable cap s'

/-- Range of the two indices: `frontP` within `0 .. cap-1`, `backP` within
`-1 .. cap-1` (`-1` is the value `backP` is initialised with). -/
def IndexInv (cap : Int) (s : Queue) : Prop :=
  0 ≤ s.frontP ∧ s.frontP ≤ cap - 1 ∧ -1 ≤ s.backP ∧ s.backP ≤ cap - 1

instance (cap : Int) (s : Queue) : Decidable (IndexInv cap s) := by
  unfold IndexInv; infer_instance

/-- The two queries of the queue. -/
inductive Query where
  | isEmpty
  | isFull

/-- One query call as a state transformer.  The bodies (lines 23 and 29) are a
single `return` of a comparison and assign no global, so the state handed back
is the state received. -/
def query (cap : Int) (s : Queue) : Query → Bool × Queue
  | Query.isEmpty => (isEmpty s, s)
  | Query.isFull => (isFull cap s, s)

/-- Calls the queries of a list one after the other, with no `add` or `get`
in between; collects the values returned. -/
def query_seq (cap : Int) : Queue → List Query → List Bool × Queue
  | s, [] => ([], s)
  | s, q :: qs =>
    let r := query cap s q
    let rest := query_seq cap r.2 qs
    (r.1 :: rest.1, rest.2)

/-- The queue of capacity 4 after `dev_write` of `[1, 2]` and `dev_read` of
length 1 from `init`. -/
def oneReadSample : Queue :=
  got 4 twoBytesSample

/-- Index used by the store `bufferD[++backP] = data` of `add` (line 44) in
state `s`; `none` when the queue is full, where `add` touches no cell. -/
def add_index (cap : Int) (s : Queue) : Option Int :=
  if !isFull cap s then
    some ((if s.backP == cap - 1 then -1 else s.backP) + 1)
  else
    none

/-- Index used by the load `bufferD[frontP++]` of `get` (line 57) in state `s`. -/
def get_index (s : Queue) : Int :=
  s.frontP

/-- States in which the loop of `dev_read` calls `get`, in call order: the
loop of `dev_read_loop` with the call sites recorded. -/
def dev_read_get_calls (cap : Int) : Nat → Queue → List Queue
  | 0, _ => []
  | n + 1, s =>
    if !isEmpty s then
      s :: (match get cap s with
        | none => []
        | some (_, s') => dev_read_get_calls cap n s')
    else
      []

/-- States and bytes with which the loop of `dev_write` calls `add`, in call
order: the loop of `dev_write_loop` with the call sites recorded. -/
def dev_write_add_calls (cap : Int) : List Byte → Queue → List (Queue × Byte)
  | [], _ => []
  | b :: rest, s =>
    (s, b) :: (match add cap s b with
      | none => []
      | some (_, s') => dev_write_add_calls cap rest s')

/-! ## Basic facts about `add` and `get` -/

theorem add_of_full (cap : Int) (s : Queue) (b : Byte) (h : s.count = cap) :
    add cap s b = some (0, s) := by
  simp [add, isFull, h]

theorem add_of_room (cap : Int) (s : Queue) (b : Byte) (hcap : 0 < cap)
    (hc : s.count ≠ cap) (hlo : -1 ≤ s.backP) (hhi : s.backP ≤ cap - 1) :
    add cap s b = some (1, { s with
      bufferD := Function.update s.bufferD ((s.backP + 1) % cap) b
      backP := (s.backP + 1) % cap
      count := s.count + 1 }) := by
  by_cases hb : s.backP = cap - 1
  · have h0 : (s.backP + 1) % cap = 0 := by
      rw [hb]; simp
    simp [add, isFull, hc, hb, hcap, h0]
  · have hlt : s.backP + 1 < cap := by omega
    have h0 : (s.backP + 1) % cap = s.backP + 1 :=
      Int.emod_eq_of_lt (by omega) hlt
    have hge : 0 ≤ s.backP + 1 := by omega
    simp [add, isFull, hc, hb, h0, hlt, hge]

theorem get_of_inside (cap : Int) (s : Queue) (hlo : 0 ≤ s.frontP) (hhi : s.frontP ≤ cap - 1) :
    get cap s = some (s.bufferD s.frontP,
      { s with frontP := (s.frontP + 1) % cap, count := s.count - 1 }) := by
  have hlt : s.frontP < cap := by omega
  by_cases hb : s.frontP + 1 = cap
  · have h0 : (s.frontP + 1) % cap = 0 := by
      rw [hb]; simp
    simp [get, hlo, hlt, hb, h0]
  · have h0 : (s.frontP + 1) % cap = s.frontP + 1 :=
      Int.emod_eq_of_lt (by omega) (by omega)
    simp [get, hlo, hlt, hb, h0]

/-! ## The invariant and the logical content -/

theorem emod_two (x c : Int) (h0 : 0 ≤ x) (h1 : x < 2 * c) :
    x % c = if x < c then x else x - c := by
  split
  · exact Int.emod_eq_of_lt h0 (by assumption)
  · rw [Int.emod_eq_sub_self_emod]
    exact Int.emod_eq_of_lt (by omega) (by omega)

theorem Inv.cap_pos {cap : Int} {s : Queue} (h : Inv cap s) : 0 < cap := by
  obtain ⟨_, _, h3, h4, _⟩ := h
  omega

theorem inv_init (cap : Int) (hcap : 0 < cap) : Inv cap init := by
  refine ⟨?_, ?_, ?_, ?_, ?_, ?_, ?_⟩ <;> simp [init] <;> omega

theorem add_inv_room {cap : Int} {s : Queue} (b : Byte) (h : Inv cap s) (hc : s.count < cap) :
    add cap s b = some (1, added cap s b) := by
  obtain ⟨h1, h2, h3, h4, h5, h6, h7⟩ := h
  exact add_of_room cap s b (by omega) (by omega) h5 (by omega)

theorem get_inv {cap : Int} {s : Queue} (h : Inv cap s) :
    get cap s = some (s.bufferD s.frontP, got cap s) := by
  obtain ⟨h1, h2, h3, h4, h5, h6, h7⟩ := h
  exact get_of_inside cap s h3 (by omega)

theorem inv_added {cap : Int} {s : Queue} (b : Byte) (h : Inv cap s) (hc : s.count < cap) :
    Inv cap (added cap s b) := by
  obtain ⟨h1, h2, h3, h4, h5, h6, h7⟩ := h
  have hcap : 0 < cap := by omega
  have hm0 : 0 ≤ (s.backP + 1) % cap := Int.emod_nonneg _ (by omega)
  have hm1 : (s.backP + 1) % cap < cap := Int.emod_lt_of_pos _ hcap
  refine ⟨?_, ?_, h3, h4, ?_, ?_, ?_⟩
  · show 0 ≤ s.count + 1; omega
  · show s.count + 1 ≤ cap; omega
  · show -1 ≤ (s.backP + 1) % cap; omega
  · exact hm1
  · show ((s.backP + 1) % cap + 1) % cap = (s.frontP + (s.count + 1)) % cap
    rw [h7, Int.emod_add_emod, Int.add_assoc]

theorem inv_got {cap : Int} {s : Queue} (h : Inv cap s) (hc : 0 < s.count) :
    Inv cap (got cap s) := by
  obtain ⟨h1, h2, h3, h4, h5, h6, h7⟩ := h
  have hcap : 0 < cap := by omega
  have hm0 : 0 ≤ (s.frontP + 1) % cap := Int.emod_nonneg _ (by omega)
  have hm1 : (s.frontP + 1) % cap < cap := Int.emod_lt_of_pos _ hcap
  refine ⟨?_, ?_, hm0, hm1, h5, h6, ?_⟩
  · show 0 ≤ s.count - 1; omega
  · show s.count - 1 ≤ cap; omega
  · show (s.backP + 1) % cap = ((s.frontP + 1) % cap + (s.count - 1)) % cap
    rw [h7, Int.emod_add_emod]
    congr 1; omega

theorem contents_length (cap : Int) (s : Queue) : (contents cap s).length = s.count.toNat := by
  simp [contents]

theorem contents_added {cap : Int} {s : Queue} (b : Byte) (h : Inv cap s) (hc : s.count < cap) :
    contents cap (added cap s b) = contents cap s ++ [b] := by
  obtain ⟨h1, h2, h3, h4, h5, h6, h7⟩ := h
  have hn : (s.count + 1).toNat = s.count.toNat + 1 := by omega
  have hcast : ((s.count.toNat : Nat) : Int) = s.count := Int.toNat_of_nonneg h1
  unfold contents added
  simp only [hn, List.range_succ, List.map_append, List.map_cons, List.map_nil]
  congr 1
  · apply List.map_congr_left
    intro i hi
    have hi' : (i : Int) < s.count := by
      have := List.mem_range.mp hi
      omega
    apply Function.update_noteq
    rw [h7, emod_two (s.frontP + i) cap (by omega) (by omega),
      emod_two (s.frontP + s.count) cap (by omega) (by omega)]
    split <;> split <;> omega
  · rw [hcast, h7, Function.update_same]

theorem contents_got {cap : Int} {s : Queue} (h : Inv cap s) (hc : 0 < s.count) :
    contents cap s = s.bufferD s.frontP :: contents cap (got cap s) := by
  obtain ⟨h1, h2, h3, h4, h5, h6, h7⟩ := h
  have hn : s.count.toNat = (s.count - 1).toNat + 1 := by omega
  unfold contents got
  simp only []
  rw [hn, List.range_succ_eq_map]
  simp only [List.map_cons, List.map_map]
  congr 1
  · simp [Int.emod_eq_of_lt h3 h4]
  · apply List.map_congr_left
    intro i _
    simp only [Function.comp, Nat.succ_eq_add_one, Int.emod_add_emod]
    congr 2
    push_cast
    omega

theorem reachable_inv {cap : Int} (hcap : 0 < cap) {s : Queue} (h : Reachable cap s) :
    Inv cap s := by
  induction h with
  | start => exact inv_init cap hcap
  | step_add s s' data r _ hadd ih =>
    by_cases hc : s.count = cap
    · rw [add_of_full cap s data hc] at hadd
      cases hadd
      exact ih
    · have hlt : s.count < cap := by
        have := ih.2.1
        omega
      rw [add_inv_room data ih hlt] at hadd
      cases hadd
      exact inv_added data ih hlt
  | step_get s s' data _ hne hget ih =>
    have hpos : 0 < s.count := by
      have := ih.1
      have hne' : s.count ≠ 0 := by simpa [isEmpty] using hne
      omega
    rw [get_inv ih] at hget
    cases hget
    exact inv_got ih hpos

/-! ## The write loop -/

theorem dev_write_loop_full (cap : Int) (bs : List Byte) (s : Queue) (acc : Int)
    (h : s.count = cap) : dev_write_loop cap bs s acc = some (acc, s) := by
  induction bs generalizing acc with
  | nil => rfl
  | cons b rest ih =>
    simp only [dev_write_loop, add_of_full cap s b h]
    rw [ih]
    simp

theorem dev_write_loop_room {cap : Int} (bs : List Byte) {s : Queue} (acc : Int)
    (h : Inv cap s) (hlen : (bs.length : Int) ≤ cap - s.count) :
    ∃ s', dev_write_loop cap bs s acc = some (acc + bs.length, s') ∧ Inv cap s' ∧
      contents cap s' = contents cap s ++ bs ∧ s'.count = s.count + bs.length ∧
      s'.frontP = s.frontP := by
  induction bs generalizing s acc with
  | nil => exact ⟨s, by simp [dev_write_loop], h, by simp, by simp, rfl⟩
  | cons b rest ih =>
    have hlen' : (rest.length : Int) + 1 ≤ cap - s.count := by
      simpa using hlen
    have hc : s.count < cap := by omega
    have hi := inv_added b h hc
    have hcount : (added cap s b).count = s.count + 1 := rfl
    obtain ⟨s', h1, h2, h3, h4, h5⟩ := ih (s := added cap s b) (acc + 1) hi (by omega)
    refine ⟨s', ?_, h2, ?_, ?_, ?_⟩
    · simp only [dev_write_loop, add_inv_room b h hc, h1, List.length_cons]
      congr 2
      push_cast
      omega
    · rw [h3, contents_added b h hc]
      simp
    · rw [h4, hcount, List.length_cons]
      push_cast
      omega
    · rw [h5]; rfl

theorem dev_write_loop_append (cap : Int) (xs ys : List Byte) (s : Queue) (acc : Int) :
    dev_write_loop cap (xs ++ ys) s acc =
      (dev_write_loop cap xs s acc).bind (fun p => dev_write_loop cap ys p.2 p.1) := by
  induction xs generalizing s acc with
  | nil => simp [dev_write_loop]
  | cons b rest ih =>
    simp only [List.cons_append, dev_write_loop]
    cases add cap s b with
    | none => simp
    | some p => simp [ih]

theorem dev_write_loop_spec {cap : Int} (bs : List Byte) {s : Queue} (acc : Int)
    (h : Inv cap s) :
    ∃ s', (∀ i : Nat, (acceptedCount cap s bs.length).toNat ≤ i →
        dev_write_loop cap (bs.take i) s acc = some (acc + acceptedCount cap s bs.length, s')) ∧
      Inv cap s' ∧
      contents cap s' = contents cap s ++ bs.take (acceptedCount cap s bs.length).toNat ∧
      s'.count = s.count + acceptedCount cap s bs.length ∧ s'.frontP = s.frontP := by
  have hc0 := h.1
  have hc1 := h.2.1
  by_cases hfit : (bs.length : Int) ≤ cap - s.count
  · have hk : acceptedCount cap s bs.length = bs.length := by
      unfold acceptedCount; omega
    obtain ⟨s', h1, h2, h3, h4, h5⟩ := dev_write_loop_room bs acc h hfit
    refine ⟨s', ?_, h2, ?_, ?_, h5⟩
    · intro i hi
      rw [hk] at hi ⊢
      rw [List.take_of_length_le (by simpa using hi), h1]
    · rw [hk]; simpa using h3
    · rw [hk, h4]
  · have hk : acceptedCount cap s bs.length = cap - s.count := by
      unfold acceptedCount; omega
    have hkn : ((cap - s.count).toNat : Int) = cap - s.count := Int.toNat_of_nonneg (by omega)
    have hlt : (cap - s.count).toNat ≤ bs.length := by omega
    have hl : ((bs.take (cap - s.count).toNat).length : Int) = cap - s.count := by
      rw [List.length_take, Nat.min_eq_left hlt, hkn]
    obtain ⟨s', h1, h2, h3, h4, h5⟩ :=
      dev_write_loop_room (bs.take (cap - s.count).toNat) acc h (by omega)
    have hfull : s'.count = cap := by omega
    refine ⟨s', ?_, h2, ?_, ?_, h5⟩
    · intro i hi
      rw [hk] at hi ⊢
      obtain ⟨j, rfl⟩ : ∃ j, i = (cap - s.count).toNat + j := ⟨i - (cap - s.count).toNat, by omega⟩
      rw [List.take_add, dev_write_loop_append, h1]
      simp only [Option.bind_some, hl]
      exact dev_write_loop_full cap _ s' _ hfull
    · rw [hk]; exact h3
    · rw [hk, h4, hl]

/-! ## The read loop -/

theorem contents_of_count_zero (cap : Int) (s : Queue) (h : s.count = 0) :
    contents cap s = [] := by
  simp [contents, h]

theorem dev_read_loop_spec {cap : Int} (n : Nat) {s : Queue} (out : List Byte) (acc : Int)
    (h : Inv cap s) :
    ∃ s', dev_read_loop cap n s out acc =
        some (acc + (readCount s n : Int), out ++ (contents cap s).take (readCount s n), s') ∧
      Inv cap s' ∧ contents cap s' = (contents cap s).drop (readCount s n) ∧
      s'.count = s.count - (readCount s n : Int) ∧ s'.backP = s.backP ∧
      s'.bufferD = s.bufferD := by
  induction n generalizing s out acc with
  | zero =>
    exact ⟨s, by simp [dev_read_loop, readCount], h, by simp [readCount],
      by simp [readCount], rfl, rfl⟩
  | succ n ih =>
    have hc0 := h.1
    by_cases he : s.count = 0
    · have hk : readCount s (n + 1) = 0 := by simp [readCount, he]
      exact ⟨s, by simp [dev_read_loop, isEmpty, he, hk], h, by simp [hk], by simp [hk],
        rfl, rfl⟩
    · have hpos : 0 < s.count := by omega
      have hcount : (got cap s).count = s.count - 1 := rfl
      have hk : readCount s (n + 1) = readCount (got cap s) n + 1 := by
        simp only [readCount, hcount]
        omega
      obtain ⟨s', h1, h2, h3, h4, h5, h6⟩ :=
        ih (s := got cap s) (out ++ [s.bufferD s.frontP]) (acc + 1) (inv_got h hpos)
      refine ⟨s', ?_, h2, ?_, ?_, ?_, ?_⟩
      · simp only [dev_read_loop, isEmpty, beq_iff_eq, he, get_inv h, h1, hk,
          contents_got h hpos, List.take_succ_cons]
        simp only [List.append_assoc, List.singleton_append]
        rw [if_pos (by simp [he])]
        congr 2
        push_cast
        omega
      · rw [h3, hk, contents_got h hpos, List.drop_succ_cons]
      · rw [hk]
        push_cast
        omega
      · rw [h5]; rfl
      · rw [h6]; rfl

/-! ## Sequences of calls -/

theorem add_seq_room {cap : Int} (bs : List Byte) {s : Queue}
    (h : Inv cap s) (hlen : (bs.length : Int) ≤ cap - s.count) :
    ∃ s', add_seq cap s bs = some (List.replicate bs.length 1, s') ∧ Inv cap s' ∧
      contents cap s' = contents cap s ++ bs ∧ s'.count = s.count + bs.length := by
  induction bs generalizing s with
  | nil => exact ⟨s, rfl, h, by simp, by simp⟩
  | cons b rest ih =>
    have hlen' : (rest.length : Int) + 1 ≤ cap - s.count := by
      simpa using hlen
    have hc : s.count < cap := by omega
    have hcount : (added cap s b).count = s.count + 1 := rfl
    obtain ⟨s', h1, h2, h3, h4⟩ := ih (s := added cap s b) (inv_added b h hc) (by omega)
    refine ⟨s', ?_, h2, ?_, ?_⟩
    · simp [add_seq, add_inv_room b h hc, h1, List.replicate_succ]
    · rw [h3, contents_added b h hc]
      simp
    · rw [h4, hcount, List.length_cons]
      push_cast
      omega

theorem add_seq_full (cap : Int) (bs : List Byte) (s : Queue) (h : s.count = cap) :
    add_seq cap s bs = some (List.replicate bs.length 0, s) := by
  induction bs with
  | nil => rfl
  | cons b rest ih => simp [add_seq, add_of_full cap s b h, ih, List.replicate_succ]

theorem add_seq_spec {cap : Int} (bs : List Byte) {s : Queue} (h : Inv cap s) :
    ∃ s', add_seq cap s bs =
        some (List.replicate (acceptedCount cap s bs.length).toNat 1 ++
          List.replicate (bs.length - (acceptedCount cap s bs.length).toNat) 0, s') ∧
      Inv cap s' ∧
      contents cap s' = contents cap s ++ bs.take (acceptedCount cap s bs.length).toNat ∧
      s'.count = s.count + acceptedCount cap s bs.length := by
  induction bs generalizing s with
  | nil =>
    have hc1 := h.2.1
    have hk : acceptedCount cap s 0 = 0 := by
      unfold acceptedCount; omega
    exact ⟨s, by simp [add_seq, hk], h, by simp, by simp [hk]⟩
  | cons b rest ih =>
    have hc0 := h.1
    have hc1 := h.2.1
    simp only [List.length_cons]
    by_cases hfull : s.count = cap
    · have hk : acceptedCount cap s (rest.length + 1) = 0 := by
        unfold acceptedCount; omega
      refine ⟨s, ?_, h, ?_, ?_⟩
      · rw [add_seq_full cap _ s hfull, hk]; simp
      · rw [hk]; simp
      · rw [hk]; simp
    · have hc : s.count < cap := by omega
      have hcount : (added cap s b).count = s.count + 1 := rfl
      have hk : acceptedCount cap s (rest.length + 1) =
          acceptedCount cap (added cap s b) rest.length + 1 := by
        unfold acceptedCount
        rw [hcount]
        push_cast
        omega
      have hk0 : 0 ≤ acceptedCount cap (added cap s b) rest.length := by
        unfold acceptedCount
        rw [hcount]
        omega
      have hkn : (acceptedCount cap (added cap s b) rest.length + 1).toNat =
          (acceptedCount cap (added cap s b) rest.length).toNat + 1 := by omega
      obtain ⟨s', h1, h2, h3, h4⟩ := ih (s := added cap s b) (inv_added b h hc)
      refine ⟨s', ?_, h2, ?_, ?_⟩
      · rw [hk, hkn]
        simp [add_seq, add_inv_room b h hc, h1, List.replicate_succ]
      · rw [h3, hk, hkn, contents_added b h hc]
        simp
      · rw [h4, hk, hcount]
        omega

theorem get_seq_spec {cap : Int} (n : Nat) {s : Queue}
    (h : Inv cap s) (hn : (n : Int) ≤ s.count) :
    ∃ s', get_seq cap s n = some ((contents cap s).take n, s') ∧ Inv cap s' ∧
      contents cap s' = (contents cap s).drop n ∧ s'.count = s.count - n := by
  induction n generalizing s with
  | zero => exact ⟨s, by simp [get_seq], h, by simp, by simp⟩
  | succ n ih =>
    have hpos : 0 < s.count := by push_cast at hn; omega
    have hcount : (got cap s).count = s.count - 1 := rfl
    obtain ⟨s', h1, h2, h3, h4⟩ :=
      ih (s := got cap s) (inv_got h hpos) (by push_cast at hn; omega)
    refine ⟨s', ?_, h2, ?_, ?_⟩
    · simp [get_seq, get_inv h, h1, contents_got h hpos]
    · rw [h3, contents_got h hpos, List.drop_succ_cons]
    · rw [h4, hcount]
      push_cast
      omega

theorem dev_write_seq_spec {cap : Int} (ws : List (List Byte)) {s : Queue} (h : Inv cap s) :
    ∃ ks s', dev_write_seq cap s ws = some (ks, s') ∧ Inv cap s' ∧
      contents cap s' = contents cap s ++ (acceptedParts ws ks).flatten ∧
      s'.count = s.count + ks.sum := by
  induction ws generalizing s with
  | nil => exact ⟨[], s, rfl, h, by simp [acceptedParts], by simp⟩
  | cons w ws ih =>
    obtain ⟨s1, h1, h2, h3, h4, _⟩ := dev_write_loop_spec w 0 h
    obtain ⟨ks, s2, g1, g2, g3, g4⟩ := ih h2
    have hle : acceptedCount cap s w.length ≤ w.length := by
      unfold acceptedCount; omega
    have hw := h1 w.length (by omega)
    rw [List.take_length, Int.zero_add] at hw
    refine ⟨acceptedCount cap s w.length :: ks, s2, ?_, g2, ?_, ?_⟩
    · simp [dev_write_seq, dev_write, hw, g1]
    · rw [g3, h3]
      simp [acceptedParts]
    · rw [g4, h4, List.sum_cons]
      omega

theorem take_append_take_drop {α : Type} (c : List α) (r m k : Nat)
    (hk : k = min r c.length) :
    c.take k ++ (c.drop k).take m = c.take (r + m) := by
  by_cases hr : r ≤ c.length
  · have : k = r := by omega
    rw [this, List.take_add]
  · have hkl : k = c.length := by omega
    rw [hkl, List.take_length, List.drop_length, List.take_nil, List.append_nil,
      List.take_of_length_le (by omega)]

theorem dev_read_seq_spec {cap : Int} (rs : List Nat) {s : Queue} (h : Inv cap s) :
    ∃ outs s', dev_read_seq cap s rs = some (outs, s') ∧ Inv cap s' ∧
      outs.flatten = (contents cap s).take rs.sum := by
  induction rs generalizing s with
  | nil => exact ⟨[], s, rfl, h, by simp⟩
  | cons r rs ih =>
    obtain ⟨s1, h1, h2, h3, _⟩ := dev_read_loop_spec r [] 0 h
    obtain ⟨outs, s2, g1, g2, g3⟩ := ih h2
    refine ⟨(contents cap s).take (readCount s r) :: outs, s2, ?_, g2, ?_⟩
    · simp [dev_read_seq, dev_read, h1, g1]
    · rw [List.flatten_cons, g3, h3, List.sum_cons]
      exact take_append_take_drop (contents cap s) r rs.sum (readCount s r)
        (by rw [contents_length]; rfl)

/-! ## The transfer handlers stay inside the reachable states -/

theorem reachable_dev_write_loop {cap : Int} (bs : List Byte) {s s' : Queue} (acc r : Int)
    (hs : Reachable cap s) (h : dev_write_loop cap bs s acc = some (r, s')) :
    Reachable cap s' := by
  induction bs generalizing s acc with
  | nil =>
    simp only [dev_write_loop, Option.some.injEq, Prod.mk.injEq] at h
    rw [← h.2]; exact hs
  | cons b rest ih =>
    simp only [dev_write_loop] at h
    cases hb : add cap s b with
    | none => simp [hb] at h
    | some p =>
      obtain ⟨r1, s1⟩ := p
      simp only [hb] at h
      exact ih _ (Reachable.step_add s s1 b r1 hs hb) h

theorem reachable_dev_write {cap : Int} (bs : List Byte) {s s' : Queue} (r : Int)
    (hs : Reachable cap s) (h : dev_write cap s bs = some (r, s')) : Reachable cap s' :=
  reachable_dev_write_loop bs 0 r hs h

theorem reachable_dev_read_loop {cap : Int} (n : Nat) {s s' : Queue} (out out' : List Byte)
    (acc r : Int) (hs : Reachable cap s)
    (h : dev_read_loop cap n s out acc = some (r, out', s')) : Reachable cap s' := by
  induction n generalizing s out acc with
  | zero =>
    simp only [dev_read_loop, Option.some.injEq, Prod.mk.injEq] at h
    rw [← h.2.2]; exact hs
  | succ n ih =>
    simp only [dev_read_loop] at h
    cases he : isEmpty s with
    | true =>
      simp only [he, Bool.not_true, Bool.false_eq_true, if_false, Option.some.injEq,
        Prod.mk.injEq] at h
      rw [← h.2.2]; exact hs
    | false =>
      simp only [he, Bool.not_false, if_true] at h
      cases hg : get cap s with
      | none => simp [hg] at h
      | some p =>
        obtain ⟨d, s1⟩ := p
        simp only [hg] at h
        exact ih _ _ (Reachable.step_get s s1 d hs he hg) h

theorem reachable_dev_read {cap : Int} (n : Nat) {s s' : Queue} (out : List Byte) (r : Int)
    (hs : Reachable cap s) (h : dev_read cap s n = some (r, out, s')) : Reachable cap s' :=
  reachable_dev_read_loop n [] out 0 r hs h

theorem add_seq_append_full (cap : Int) (xs ys : List Byte) (s s1 : Queue) (rs : List Int)
    (h : add_seq cap s xs = some (rs, s1)) (hfull : s1.count = cap) :
    add_seq cap s (xs ++ ys) = some (rs ++ List.replicate ys.length 0, s1) := by
  induction xs generalizing s rs with
  | nil =>
    simp only [add_seq, Option.some.injEq, Prod.mk.injEq] at h
    obtain ⟨rfl, rfl⟩ := h
    simpa using add_seq_full cap ys s hfull
  | cons x xs ih =>
    simp only [List.cons_append, add_seq] at h ⊢
    cases hx : add cap s x with
    | none => simp [hx] at h
    | some p =>
      obtain ⟨r, sx⟩ := p
      simp only [hx] at h ⊢
      cases hxs : add_seq cap sx xs with
      | none => simp [hxs] at h
      | some q =>
        obtain ⟨rs', s2⟩ := q
        simp only [hxs, Option.some.injEq, Prod.mk.injEq] at h
        obtain ⟨rfl, rfl⟩ := h
        simp [ih sx rs' hxs]

theorem contents_init (cap : Int) : contents cap init = [] := by
  simp [contents, init]

/-! ## The claims -/

/-- C1: when `count = MAX` (queue full), `add b` returns `0` and the state it
leaves is the state it found: `bufferD`, `frontP`, `backP` and `count` are all
unchanged, so the new byte is dropped and no old byte is evicted.  Stated for
any capacity, `MAX = 2000` included. -/
theorem add_full_drops_byte (cap : Int) (s : Queue) (b : Byte) (h : s.count = cap) :
    add cap s b = some (0, s) :=
  add_of_full cap s b h

theorem add_full_drops_byte_witness : add MAX fullSample 101 = some (0, fullSample) :=
  add_full_drops_byte MAX fullSample 101 rfl

/-- C2: when `count < MAX` and `-1 ≤ backP ≤ MAX-1`, `add b` returns `1`, moves
`backP` to `(backP + 1) mod MAX` (so `MAX-1` wraps to `0`), stores `b` in that
cell and in no other, adds exactly one to `count` and leaves `frontP` alone.
Stated for any positive capacity. -/
theorem add_room_stores_byte (cap : Int) (hcap : 0 < cap) (s : Queue) (b : Byte)
    (hc : s.count < cap) (hlo : -1 ≤ s.backP) (hhi : s.backP ≤ cap - 1) :
    ∃ s', add cap s b = some (1, s') ∧
      s'.backP = (s.backP + 1) % cap ∧ (s.backP = cap - 1 → s'.backP = 0) ∧
      s'.bufferD s'.backP = b ∧ (∀ j, j ≠ s'.backP → s'.bufferD j = s.bufferD j) ∧
      s'.count = s.count + 1 ∧ s'.frontP = s.frontP := by
  refine ⟨added cap s b, add_of_room cap s b hcap (by omega) hlo hhi, rfl, ?_, ?_, ?_, rfl, rfl⟩
  · intro hb
    show (s.backP + 1) % cap = 0
    rw [hb]; simp
  · show Function.update s.bufferD ((s.backP + 1) % cap) b ((s.backP + 1) % cap) = b
    exact Function.update_same _ _ _
  · intro j hj
    exact Function.update_noteq hj b s.bufferD

theorem add_room_stores_byte_witness :
    ∃ s', add MAX backAtEndSample 101 = some (1, s') ∧
      s'.backP = (backAtEndSample.backP + 1) % MAX ∧
      (backAtEndSample.backP = MAX - 1 → s'.backP = 0) ∧
      s'.bufferD s'.backP = 101 ∧
      (∀ j, j ≠ s'.backP → s'.bufferD j = backAtEndSample.bufferD j) ∧
      s'.count = backAtEndSample.count + 1 ∧ s'.frontP = backAtEndSample.frontP :=
  add_room_stores_byte MAX (by decide) backAtEndSample 101 (by decide) (by decide) (by decide)

/-- C3: when `0 ≤ frontP ≤ MAX-1`, `get` returns the byte `bufferD[frontP]`,
moves `frontP` to `(frontP + 1) mod MAX` (so `MAX-1` wraps to `0`), takes
exactly one off `count` and leaves `bufferD` and `backP` alone.  The equations
hold whatever `count` is, in particular for `count > 0`.  Stated for any
capacity. -/
theorem get_returns_front_byte (cap : Int) (s : Queue)
    (hlo : 0 ≤ s.frontP) (hhi : s.frontP ≤ cap - 1) :
    ∃ s', get cap s = some (s.bufferD s.frontP, s') ∧
      s'.frontP = (s.frontP + 1) % cap ∧ (s.frontP = cap - 1 → s'.frontP = 0) ∧
      s'.count = s.count - 1 ∧ s'.bufferD = s.bufferD ∧ s'.backP = s.backP := by
  refine ⟨got cap s, get_of_inside cap s hlo hhi, rfl, ?_, rfl, rfl, rfl⟩
  intro hb
  show (s.frontP + 1) % cap = 0
  rw [hb]; simp

theorem get_returns_front_byte_witness :
    ∃ s', get MAX frontAtEndSample = some (frontAtEndSample.bufferD frontAtEndSample.frontP, s') ∧
      s'.frontP = (frontAtEndSample.frontP + 1) % MAX ∧
      (frontAtEndSample.frontP = MAX - 1 → s'.frontP = 0) ∧
      s'.count = frontAtEndSample.count - 1 ∧ s'.bufferD = frontAtEndSample.bufferD ∧
      s'.backP = frontAtEndSample.backP :=
  get_returns_front_byte MAX frontAtEndSample (by decide) (by decide)

/-- C4: in a reachable state, `dev_write` on `bs` (at most `2^31 - 1` bytes)
returns `accepted = min (length bs, MAX - count)`, a value that fits a C `int`;
the queue then holds its former content followed by the first `accepted` bytes
of `bs` in input order; and every later byte is discarded: stopping the input
anywhere at or after position `accepted` gives the same return value and the
same state, so no byte after the first rejected one is taken. -/
theorem dev_write_takes_leading_bytes (cap : Int) (hcap : 0 < cap) (s : Queue)
    (hs : Reachable cap s) (bs : List Byte) (hlen : (bs.length : Int) ≤ 2 ^ 31 - 1) :
    ∃ s', dev_write cap s bs = some (min (bs.length : Int) (cap - s.count), s') ∧
      contents cap s' =
        contents cap s ++ bs.take (min (bs.length : Int) (cap - s.count)).toNat ∧
      (∀ i : Nat, (min (bs.length : Int) (cap - s.count)).toNat ≤ i →
        dev_write cap s (bs.take i) = some (min (bs.length : Int) (cap - s.count), s')) ∧
      0 ≤ min (bs.length : Int) (cap - s.count) ∧
      min (bs.length : Int) (cap - s.count) ≤ 2 ^ 31 - 1 := by
  have hinv := reachable_inv hcap hs
  have hc1 := hinv.2.1
  obtain ⟨s', h1, _, h3, _, _⟩ := dev_write_loop_spec bs 0 hinv
  simp only [acceptedCount, Int.zero_add] at h1 h3
  have hle : min (bs.length : Int) (cap - s.count) ≤ bs.length := min_le_left _ _
  refine ⟨s', ?_, h3, h1, ?_, ?_⟩
  · have := h1 bs.length (by omega)
    rwa [List.take_length] at this
  · exact le_min (by omega) (by omega)
  · omega

theorem dev_write_takes_leading_bytes_witness :
    ∃ s', dev_write 4 init [1, 2, 3, 4, 5, 6] = some (4, s') ∧
      contents 4 s' = [1, 2, 3, 4] ∧
      dev_write 4 init [1, 2, 3, 4, 5] = some (4, s') := by
  obtain ⟨s', h1, h2, h3, _⟩ :=
    dev_write_takes_leading_bytes 4 (by decide) init Reachable.start [1, 2, 3, 4, 5, 6]
      (by decide)
  have hk : min (([1, 2, 3, 4, 5, 6] : List Byte).length : Int) (4 - init.count) = 4 := by
    decide
  rw [hk] at h1 h2 h3
  exact ⟨s', h1, by simpa [contents_init] using h2, by simpa using h3 5 (by decide)⟩

/-- C5: in a reachable state, `dev_read` with requested length `n` returns
`amountRead = min (n, count)` and hands the user exactly that many bytes: the
oldest `min (n, count)` bytes of the queue, oldest first; the rest stays
queued.  In particular it returns no byte when the queue is empty, and a short
result when the queue holds fewer than `n` bytes. -/
theorem dev_read_returns_oldest_bytes (cap : Int) (hcap : 0 < cap) (s : Queue)
    (hs : Reachable cap s) (n : Nat) :
    ∃ out s', dev_read cap s n = some (min (n : Int) s.count, out, s') ∧
      out = (contents cap s).take (min n s.count.toNat) ∧
      (out.length : Int) = min (n : Int) s.count ∧
      contents cap s' = (contents cap s).drop (min n s.count.toNat) ∧
      (s.count = 0 → out = []) ∧ (s.count < n → out = contents cap s) := by
  have hinv := reachable_inv hcap hs
  have hc0 := hinv.1
  obtain ⟨s', h1, _, h3, _⟩ := dev_read_loop_spec n [] 0 hinv
  have hk : ((readCount s n : Nat) : Int) = min (n : Int) s.count := by
    unfold readCount; omega
  simp only [Int.zero_add, List.nil_append, hk] at h1
  refine ⟨_, s', h1, rfl, ?_, h3, ?_, ?_⟩
  · rw [List.length_take, contents_length]
    omega
  · intro h0
    rw [contents_of_count_zero cap s h0, List.take_nil]
  · intro hlt
    apply List.take_of_length_le
    rw [contents_length]
    omega

theorem dev_read_returns_oldest_bytes_witness :
    ∃ out s', dev_read 4 twoBytesSample 5 = some (min ((5 : Nat) : Int) twoBytesSample.count, out, s') ∧
      out = (contents 4 twoBytesSample).take (min 5 twoBytesSample.count.toNat) ∧
      (out.length : Int) = min ((5 : Nat) : Int) twoBytesSample.count ∧
      contents 4 s' = (contents 4 twoBytesSample).drop (min 5 twoBytesSample.count.toNat) ∧
      (twoBytesSample.count = 0 → out = []) ∧
      (twoBytesSample.count < (5 : Nat) → out = contents 4 twoBytesSample) :=
  dev_read_returns_oldest_bytes 4 (by decide) twoBytesSample
    (Reachable.step_add (added 4 init 1) twoBytesSample 2 1
      (Reachable.step_add init (added 4 init 1) 1 1 Reachable.start
        (add_inv_room 1 (inv_init 4 (by decide)) (by decide)))
      (add_inv_room 2 (inv_added 1 (inv_init 4 (by decide)) (by decide)) (by decide))) 5

/-- C6: from the initial empty state, after any `dev_write` calls `W1 .. Wn`
and then any `dev_read` calls with lengths `r1 .. rm`, the read results put end
to end are the first `min (r1 + .. + rm, total accepted)` bytes of
(accepted part of `W1`) ++ .. ++ (accepted part of `Wn`): original order, cut
only by the read lengths or by the queue running empty. -/
theorem writes_then_reads_fifo (cap : Int) (hcap : 0 < cap) (ws : List (List Byte))
    (rs : List Nat) :
    ∃ ks s1 outs s2, dev_write_seq cap init ws = some (ks, s1) ∧
      dev_read_seq cap s1 rs = some (outs, s2) ∧
      outs.flatten = ((acceptedParts ws ks).flatten).take (min rs.sum ks.sum.toNat) := by
  obtain ⟨ks, s1, h1, h2, h3, h4⟩ := dev_write_seq_spec ws (inv_init cap hcap)
  obtain ⟨outs, s2, g1, _, g3⟩ := dev_read_seq_spec rs h2
  refine ⟨ks, s1, outs, s2, h1, g1, ?_⟩
  rw [contents_init, List.nil_append] at h3
  have hlen : ((acceptedParts ws ks).flatten).length = ks.sum.toNat := by
    rw [← h3, contents_length, h4]
    simp [init]
  rw [g3, h3, ← hlen, ← List.take_take, List.take_length]

theorem writes_then_reads_fifo_witness :
    ∃ ks s1 outs s2, dev_write_seq 4 init [[1, 2, 3], [4, 5, 6], [7]] = some (ks, s1) ∧
      dev_read_seq 4 s1 [1, 0, 2, 5] = some (outs, s2) ∧
      outs.flatten = ((acceptedParts [[1, 2, 3], [4, 5, 6], [7]] ks).flatten).take
        (min ([1, 0, 2, 5] : List Nat).sum ks.sum.toNat) :=
  writes_then_reads_fifo 4 (by decide) [[1, 2, 3], [4, 5, 6], [7]] [1, 0, 2, 5]

/-- C7, as stated, fails: a single `get` on the initial state of the source
(capacity `MAX`) is a finite sequence of calls, it runs (the load is in
bounds) and it leaves `count = -1`; so it is not true that `0 ≤ count ≤ MAX`
after every finite sequence of `add` and `get` calls. -/
theorem unguarded_get_makes_count_negative :
    (∃ s, run MAX init [Op.get] = some s ∧ s.count = -1) ∧
      ¬ (∀ ops s, run MAX init ops = some s → 0 ≤ s.count ∧ s.count ≤ MAX) := by
  have hrun : run MAX init [Op.get] = some (got MAX init) := by
    simp [run, step, get_inv (inv_init MAX (by decide))]
  refine ⟨⟨got MAX init, hrun, by decide⟩, ?_⟩
  intro hall
  have h := (hall [Op.get] (got MAX init) hrun).1
  exact absurd h (by decide)

/-- C7, amended: in every state reached from the initial state by `add` calls
and by `get` calls made only when `isEmpty ()` is false, `0 ≤ count ≤ MAX`;
and in every such state `isEmpty ()` is true exactly when `count = 0` and
`isFull ()` is true exactly when `count = MAX`. -/
theorem guarded_calls_keep_count_in_range (cap : Int) (hcap : 0 < cap) (s : Queue)
    (hs : Reachable cap s) :
    0 ≤ s.count ∧ s.count ≤ cap ∧ (isEmpty s = true ↔ s.count = 0) ∧
      (isFull cap s = true ↔ s.count = cap) := by
  have hinv := reachable_inv hcap hs
  exact ⟨hinv.1, hinv.2.1, by simp [isEmpty], by simp [isFull]⟩

theorem guarded_calls_keep_count_in_range_witness :
    0 ≤ (added MAX init 97).count ∧ (added MAX init 97).count ≤ MAX ∧
      (isEmpty (added MAX init 97) = true ↔ (added MAX init 97).count = 0) ∧
      (isFull MAX (added MAX init 97) = true ↔ (added MAX init 97).count = MAX) :=
  guarded_calls_keep_count_in_range MAX (by decide) (added MAX init 97)
    (Reachable.step_add init (added MAX init 97) 97 1 Reachable.start
      (add_inv_room 97 (inv_init MAX (by decide)) (by decide)))

/-- C8: from the initial empty state, for every sequence of `MAX + 1` bytes,
each of the first `MAX` calls of `add` returns `1`, and call number `MAX + 1`
returns `0` and leaves `count = MAX` (indeed it leaves the whole state as it
was).  Stated for any capacity `n ≥ 1`. -/
theorem capacity_boundary (n : Nat) (hn : 0 < n) (bs : List Byte) (hlen : bs.length = n + 1) :
    ∃ s1, add_seq n init (bs.take n) = some (List.replicate n 1, s1) ∧ s1.count = n ∧
      add_seq n init bs = some (List.replicate n 1 ++ [0], s1) ∧
      ∀ b, add n s1 b = some (0, s1) := by
  have hinv := inv_init (n : Int) (by omega)
  have h0 : init.count = 0 := rfl
  have hlt : (bs.take n).length = n := by
    rw [List.length_take]; omega
  obtain ⟨s1, h1, _, _, h4⟩ := add_seq_room (bs.take n) hinv (by rw [hlt, h0]; omega)
  rw [hlt, h0, Int.zero_add] at h4
  rw [hlt] at h1
  refine ⟨s1, h1, h4, ?_, fun b => add_of_full n s1 b h4⟩
  have hd : (bs.drop n).length = 1 := by
    rw [List.length_drop]; omega
  have := add_seq_append_full n (bs.take n) (bs.drop n) init s1 _ h1 h4
  rwa [List.take_append_drop, hd] at this

theorem capacity_boundary_witness :
    ∃ s1, add_seq (4 : Nat) init (([97, 98, 99, 100, 101] : List Byte).take 4) =
        some (List.replicate 4 1, s1) ∧ s1.count = (4 : Nat) ∧
      add_seq (4 : Nat) init [97, 98, 99, 100, 101] = some (List.replicate 4 1 ++ [0], s1) ∧
      ∀ b, add (4 : Nat) s1 b = some (0, s1) :=
  capacity_boundary 4 (by decide) [97, 98, 99, 100, 101] rfl

/-- C9: fill-and-drain round trip.  From the initial empty state with capacity
`C`, adding bytes `b1 .. bC` succeeds `C` times and leaves `isFull ()` true with
`count = C`; one more `add` returns `0` and leaves `count = C`; then `C` calls
of `get` return `b1, b2, .., bC` in that order and leave `count = 0` with
`isEmpty ()` true.  Stated for any capacity `C ≥ 1`; the source has `C = 2000`,
the scenario of the specification `C = 4`. -/
theorem fill_then_drain (n : Nat) (hn : 0 < n) (bs : List Byte) (hlen : bs.length = n)
    (e : Byte) :
    ∃ s1 s2, add_seq n init bs = some (List.replicate n 1, s1) ∧
      isFull n s1 = true ∧ s1.count = n ∧
      add n s1 e = some (0, s1) ∧
      get_seq n s1 n = some (bs, s2) ∧ s2.count = 0 ∧ isEmpty s2 = true := by
  have hinv := inv_init (n : Int) (by omega)
  have h0 : init.count = 0 := rfl
  obtain ⟨s1, h1, h2, h3, h4⟩ := add_seq_room bs hinv (by rw [hlen, h0]; omega)
  rw [hlen, h0, Int.zero_add] at h4
  rw [hlen] at h1
  rw [contents_init, List.nil_append] at h3
  obtain ⟨s2, g1, _, _, g4⟩ := get_seq_spec n h2 (by omega)
  rw [h3, List.take_of_length_le (by omega)] at g1
  have hz : s2.count = 0 := by omega
  exact ⟨s1, s2, h1, by simp [isFull, h4], h4, add_of_full n s1 e h4, g1, hz,
    by simp [isEmpty, hz]⟩

theorem fill_then_drain_witness :
    ∃ s1 s2, add_seq (4 : Nat) init [97, 98, 99, 100] = some (List.replicate 4 1, s1) ∧
      isFull (4 : Nat) s1 = true ∧ s1.count = (4 : Nat) ∧
      add (4 : Nat) s1 101 = some (0, s1) ∧
      get_seq (4 : Nat) s1 4 = some ([97, 98, 99, 100], s2) ∧ s2.count = 0 ∧
      isEmpty s2 = true :=
  fill_then_drain 4 (by decide) [97, 98, 99, 100] rfl 101

/-- C10: from the initial empty state of the capacity-2000 queue, for every
`bs` of 20 bytes: `dev_write bs` returns 20; a following `dev_read` of length 5
returns 5 and exactly the first 5 bytes of `bs` in order; a following
`dev_read` of length 100 returns 15 (a short read) and exactly the other 15
bytes of `bs` in order, and leaves the queue empty. -/
theorem write20_read5_read100 (bs : List Byte) (hlen : bs.length = 20) :
    ∃ s1 s2 s3, dev_write MAX init bs = some (20, s1) ∧
      dev_read MAX s1 5 = some (5, bs.take 5, s2) ∧
      dev_read MAX s2 100 = some (15, bs.drop 5, s3) ∧
      (bs.take 5).length = 5 ∧ (bs.drop 5).length = 15 ∧
      s3.count = 0 ∧ isEmpty s3 = true ∧ contents MAX s3 = [] := by
  have hinv := inv_init MAX (by decide)
  have h0 : init.count = 0 := rfl
  have hk : acceptedCount MAX init bs.length = 20 := by
    unfold acceptedCount
    rw [hlen, h0]
    decide
  obtain ⟨s1, h1, h2, h3, h4, _⟩ := dev_write_loop_spec bs 0 hinv
  have hw := h1 bs.length (by rw [hk, hlen]; decide)
  rw [hk] at hw h3 h4
  rw [List.take_length, Int.zero_add] at hw
  rw [h0, Int.zero_add] at h4
  rw [contents_init, List.nil_append, List.take_of_length_le (by rw [hlen]; decide)] at h3
  obtain ⟨s2, g1, g2, g3, g4, _⟩ := dev_read_loop_spec 5 [] 0 h2
  have hr1 : readCount s1 5 = 5 := by
    unfold readCount; rw [h4]; decide
  rw [hr1, h3] at g1 g3
  rw [hr1, h4] at g4
  obtain ⟨s3, f1, _, f3, f4, _⟩ := dev_read_loop_spec 100 [] 0 g2
  have hr2 : readCount s2 100 = 15 := by
    unfold readCount; rw [g4]; decide
  have hd : (bs.drop 5).length = 15 := by
    rw [List.length_drop, hlen]
  rw [hr2, g3] at f1 f3
  rw [hr2, g4] at f4
  rw [List.take_of_length_le (by rw [hd])] at f1
  have hz : s3.count = 0 := by rw [f4]; decide
  refine ⟨s1, s2, s3, hw, ?_, ?_, ?_, hd, hz, by simp [isEmpty, hz],
    contents_of_count_zero MAX s3 hz⟩
  · simpa [dev_read] using g1
  · simpa [dev_read] using f1
  · rw [List.length_take, hlen]
    decide

theorem write20_read5_read100_witness :
    ∃ s1 s2 s3, dev_write MAX init (List.replicate 20 65) = some (20, s1) ∧
      dev_read MAX s1 5 = some (5, (List.replicate 20 (65 : Byte)).take 5, s2) ∧
      dev_read MAX s2 100 = some (15, (List.replicate 20 (65 : Byte)).drop 5, s3) ∧
      ((List.replicate 20 (65 : Byte)).take 5).length = 5 ∧
      ((List.replicate 20 (65 : Byte)).drop 5).length = 15 ∧
      s3.count = 0 ∧ isEmpty s3 = true ∧ contents MAX s3 = [] :=
  write20_read5_read100 (List.replicate 20 65) rfl

/-! ## Refinement of a bounded FIFO list -/

theorem reachable_added {cap : Int} (hcap : 0 < cap) {s : Queue} (b : Byte)
    (hs : Reachable cap s) (hc : s.count < cap) : Reachable cap (added cap s b) :=
  Reachable.step_add s (added cap s b) b 1 hs (add_inv_room b (reachable_inv hcap hs) hc)

theorem reachable_got {cap : Int} (hcap : 0 < cap) {s : Queue}
    (hs : Reachable cap s) (hc : 0 < s.count) : Reachable cap (got cap s) :=
  Reachable.step_get s (got cap s) (s.bufferD s.frontP) hs
    (by simp only [isEmpty, beq_eq_false_iff_ne]; omega) (get_inv (reachable_inv hcap hs))

theorem reachable_wrappedSample : Reachable 2 wrappedSample := by
  have h2 : (0 : Int) < 2 := by decide
  have r1 := reachable_added h2 1 (Reachable.start : Reachable 2 init) (by decide)
  have r2 := reachable_added h2 2 r1 (by decide)
  have r3 := reachable_got h2 r2 (by decide)
  have r4 := reachable_got h2 r3 (by decide)
  have r5 := reachable_added h2 3 r4 (by decide)
  have r6 := reachable_added h2 4 r5 (by decide)
  have r7 := reachable_got h2 r6 (by decide)
  have r8 := reachable_got h2 r7 (by decide)
  exact reachable_added h2 5 r8 (by decide)

/-- C11: the ring buffer refines a bounded FIFO list.  With the logical content
`q` of a state defined as the `count` bytes `bufferD[frontP],
bufferD[(frontP+1) mod MAX], ..`, in every state reached from the initial one
by `add` calls and by `get` calls made only when not empty (however often
`frontP` and `backP` have wrapped): an `add b` with room returns `1` and turns
`q` into `q ++ [b]`; an `add b` on a full queue returns `0` and leaves `q` (and
the state) unchanged; `add` does one or the other; and when the queue is not
empty `get` returns the first element of `q` and leaves the rest of `q`. -/
theorem ring_refines_fifo (cap : Int) (hcap : 0 < cap) (s : Queue) (hs : Reachable cap s) :
    (∀ b, (s.count < cap ∧ ∃ s', add cap s b = some (1, s') ∧
          contents cap s' = contents cap s ++ [b]) ∨
        (s.count = cap ∧ ∃ s', add cap s b = some (0, s') ∧
          contents cap s' = contents cap s)) ∧
      (isEmpty s = false → ∃ d s' rest, get cap s = some (d, s') ∧
        contents cap s = d :: rest ∧ contents cap s' = rest) ∧
      (contents cap s).length = s.count.toNat ∧ (contents cap s).length ≤ cap.toNat := by
  have hinv := reachable_inv hcap hs
  have hc0 := hinv.1
  have hc1 := hinv.2.1
  refine ⟨?_, ?_, contents_length cap s, ?_⟩
  · intro b
    by_cases hfull : s.count = cap
    · exact Or.inr ⟨hfull, s, add_of_full cap s b hfull, rfl⟩
    · have hlt : s.count < cap := by omega
      exact Or.inl ⟨hlt, added cap s b, add_inv_room b hinv hlt, contents_added b hinv hlt⟩
  · intro he
    have hne : s.count ≠ 0 := by simpa [isEmpty] using he
    have hpos : 0 < s.count := by omega
    exact ⟨s.bufferD s.frontP, got cap s, contents cap (got cap s), get_inv hinv,
      contents_got hinv hpos, rfl⟩
  · rw [contents_length]
    omega

theorem ring_refines_fifo_witness :
    (∀ b, (wrappedSample.count < 2 ∧ ∃ s', add 2 wrappedSample b = some (1, s') ∧
          contents 2 s' = contents 2 wrappedSample ++ [b]) ∨
        (wrappedSample.count = 2 ∧ ∃ s', add 2 wrappedSample b = some (0, s') ∧
          contents 2 s' = contents 2 wrappedSample)) ∧
      (isEmpty wrappedSample = false → ∃ d s' rest, get 2 wrappedSample = some (d, s') ∧
        contents 2 wrappedSample = d :: rest ∧ contents 2 s' = rest) ∧
      (contents 2 wrappedSample).length = wrappedSample.count.toNat ∧
      (contents 2 wrappedSample).length ≤ (2 : Int).toNat :=
  ring_refines_fifo 2 (by decide) wrappedSample reachable_wrappedSample

/-! ## Range of the indices, with or without the guard on `get` -/

theorem indexInv_init (cap : Int) (hcap : 0 < cap) : IndexInv cap init := by
  refine ⟨?_, ?_, ?_, ?_⟩ <;> simp [init] <;> omega

theorem add_indexInv {cap : Int} (hcap : 0 < cap) {s : Queue} (b : Byte) (h : IndexInv cap s) :
    ∃ r s', add cap s b = some (r, s') ∧ IndexInv cap s' ∧ (0 ≤ s.backP → 0 ≤ s'.backP) ∧
      (r = 0 ∨ r = 1) ∧ (r = 0 → s' = s) ∧
      (r = 1 → 0 ≤ s'.backP ∧ s'.backP = (s.backP + 1) % cap ∧
        (s.backP = cap - 1 → s'.backP = 0)) := by
  obtain ⟨h1, h2, h3, h4⟩ := h
  by_cases hfull : s.count = cap
  · exact ⟨0, s, add_of_full cap s b hfull, ⟨h1, h2, h3, h4⟩, fun h => h, Or.inl rfl,
      fun _ => rfl, fun h => absurd h (by decide)⟩
  · have hm0 : 0 ≤ (s.backP + 1) % cap := Int.emod_nonneg _ (by omega)
    have hm1 : (s.backP + 1) % cap < cap := Int.emod_lt_of_pos _ hcap
    refine ⟨1, added cap s b, add_of_room cap s b hcap hfull h3 h4, ⟨h1, h2, ?_, ?_⟩,
      fun _ => hm0, Or.inr rfl, fun h => absurd h (by decide), fun _ => ⟨hm0, rfl, ?_⟩⟩
    · show -1 ≤ (s.backP + 1) % cap; omega
    · show (s.backP + 1) % cap ≤ cap - 1; omega
    · intro hb
      show (s.backP + 1) % cap = 0
      rw [hb]; simp

theorem get_indexInv {cap : Int} (hcap : 0 < cap) {s : Queue} (h : IndexInv cap s) :
    get cap s = some (s.bufferD s.frontP, got cap s) ∧ IndexInv cap (got cap s) := by
  obtain ⟨h1, h2, h3, h4⟩ := h
  have hm0 : 0 ≤ (s.frontP + 1) % cap := Int.emod_nonneg _ (by omega)
  have hm1 : (s.frontP + 1) % cap < cap := Int.emod_lt_of_pos _ hcap
  refine ⟨get_of_inside cap s h1 h2, hm0, ?_, h3, h4⟩
  show (s.frontP + 1) % cap ≤ cap - 1
  omega

theorem run_indexInv {cap : Int} (hcap : 0 < cap) (ops : List Op) {s : Queue}
    (h : IndexInv cap s) :
    ∃ s', run cap s ops = some s' ∧ IndexInv cap s' ∧ (0 ≤ s.backP → 0 ≤ s'.backP) := by
  induction ops generalizing s with
  | nil => exact ⟨s, rfl, h, fun h => h⟩
  | cons op ops ih =>
    cases op with
    | add b =>
      obtain ⟨r, s1, h1, h2, h3, _⟩ := add_indexInv hcap b h
      obtain ⟨s2, g1, g2, g3⟩ := ih h2
      exact ⟨s2, by simp [run, step, h1, g1], g2, fun h0 => g3 (h3 h0)⟩
    | get =>
      obtain ⟨h1, h2⟩ := get_indexInv hcap h
      obtain ⟨s2, g1, g2, g3⟩ := ih h2
      exact ⟨s2, by simp [run, step, h1, g1], g2, fun h0 => g3 h0⟩

/-- C12, as stated, fails: in the initial state of the source (the state after
the empty sequence of calls) `backP = -1`, which is not in `[0, MAX-1]`. -/
theorem initial_backP_outside_range :
    run MAX init [] = some init ∧ init.backP = -1 ∧
      ¬ (0 ≤ init.backP ∧ init.backP ≤ MAX - 1) :=
  ⟨rfl, rfl, by decide⟩

/-- C12, amended: after any sequence of `add` and `get` calls from the initial
state (guarded or not; every call runs), `frontP` lies in `[0, MAX-1]` and
`backP` lies in `[-1, MAX-1]`, `-1` being the value it starts with; an accepted
`add` puts `backP` in `[0, MAX-1]` and it stays there through all later calls;
`add` advances `backP` and `get` advances `frontP` by one modulo `MAX`, so
advancing either past `MAX-1` wraps it to `0`. -/
theorem indices_stay_in_range (cap : Int) (hcap : 0 < cap) (ops : List Op) :
    ∃ s, run cap init ops = some s ∧
      (0 ≤ s.frontP ∧ s.frontP ≤ cap - 1) ∧ (-1 ≤ s.backP ∧ s.backP ≤ cap - 1) ∧
      (∀ b, ∃ r s', add cap s b = some (r, s') ∧ (r = 0 ∨ r = 1) ∧
        (r = 1 → (0 ≤ s'.backP ∧ s'.backP ≤ cap - 1) ∧ s'.backP = (s.backP + 1) % cap ∧
          (s.backP = cap - 1 → s'.backP = 0) ∧
          ∀ more, ∃ s'', run cap s' more = some s'' ∧ 0 ≤ s''.backP ∧ s''.backP ≤ cap - 1)) ∧
      (∃ d s', get cap s = some (d, s') ∧ s'.frontP = (s.frontP + 1) % cap ∧
        (s.frontP = cap - 1 → s'.frontP = 0)) := by
  obtain ⟨s, h1, h2, _⟩ := run_indexInv hcap ops (indexInv_init cap hcap)
  refine ⟨s, h1, ⟨h2.1, h2.2.1⟩, ⟨h2.2.2.1, h2.2.2.2⟩, ?_, ?_⟩
  · intro b
    obtain ⟨r, s', g1, g2, _, g4, _, g6⟩ := add_indexInv hcap b h2
    refine ⟨r, s', g1, g4, fun hr => ?_⟩
    obtain ⟨k1, k2, k3⟩ := g6 hr
    refine ⟨⟨k1, g2.2.2.2⟩, k2, k3, fun more => ?_⟩
    obtain ⟨s'', m1, m2, m3⟩ := run_indexInv hcap more g2
    exact ⟨s'', m1, m3 k1, m2.2.2.2⟩
  · refine ⟨s.bufferD s.frontP, got cap s, (get_indexInv hcap h2).1, rfl, ?_⟩
    intro hb
    show (s.frontP + 1) % cap = 0
    rw [hb]; simp

theorem indices_stay_in_range_witness :
    ∃ s, run MAX init [Op.get, Op.add 97, Op.get] = some s ∧
      (0 ≤ s.frontP ∧ s.frontP ≤ MAX - 1) ∧ (-1 ≤ s.backP ∧ s.backP ≤ MAX - 1) ∧
      (∀ b, ∃ r s', add MAX s b = some (r, s') ∧ (r = 0 ∨ r = 1) ∧
        (r = 1 → (0 ≤ s'.backP ∧ s'.backP ≤ MAX - 1) ∧ s'.backP = (s.backP + 1) % MAX ∧
          (s.backP = MAX - 1 → s'.backP = 0) ∧
          ∀ more, ∃ s'', run MAX s' more = some s'' ∧ 0 ≤ s''.backP ∧ s''.backP ≤ MAX - 1)) ∧
      (∃ d s', get MAX s = some (d, s') ∧ s'.frontP = (s.frontP + 1) % MAX ∧
        (s.frontP = MAX - 1 → s'.frontP = 0)) :=
  indices_stay_in_range MAX (by decide) [Op.get, Op.add 97, Op.get]

/-! ## The queries -/

theorem query_seq_spec (cap : Int) (s : Queue) (qs : List Query) :
    query_seq cap s qs = (qs.map (fun q => (query cap s q).1), s) := by
  induction qs with
  | nil => rfl
  | cons q qs ih =>
    cases q <;> simp [query_seq, query, ih]

/-- C13: `isEmpty ()` and `isFull ()` are pure queries.  In every state
`isEmpty ()` is true iff `count = 0` and `isFull ()` is true iff `count = MAX`;
a call hands back the state it received (`bufferD`, `frontP`, `backP`, `count`
unchanged); and any run of such calls with no `add` or `get` in between
returns, call after call, the value fixed by the `count` of the starting
state — the same value every time for the same query — and ends in the
starting state. -/
theorem queries_are_pure (cap : Int) (s : Queue) :
    (isEmpty s = true ↔ s.count = 0) ∧ (isFull cap s = true ↔ s.count = cap) ∧
      (∀ q, (query cap s q).2 = s) ∧
      (∀ qs, (query_seq cap s qs).2 = s ∧
        (query_seq cap s qs).1 = qs.map (fun q =>
          match q with
          | Query.isEmpty => decide (s.count = 0)
          | Query.isFull => decide (s.count = cap))) ∧
      (∀ n, query_seq cap s (List.replicate n Query.isEmpty) =
        (List.replicate n (isEmpty s), s)) ∧
      (∀ n, query_seq cap s (List.replicate n Query.isFull) =
        (List.replicate n (isFull cap s), s)) := by
  refine ⟨by simp [isEmpty], by simp [isFull], ?_, ?_, ?_, ?_⟩
  · intro q
    cases q <;> rfl
  · intro qs
    rw [query_seq_spec]
    refine ⟨rfl, ?_⟩
    apply List.map_congr_left
    intro q _
    cases q
    · show isEmpty s = decide (s.count = 0)
      by_cases h : s.count = 0 <;> simp [isEmpty, h]
    · show isFull cap s = decide (s.count = cap)
      by_cases h : s.count = cap <;> simp [isFull, h]
  · intro n
    rw [query_seq_spec]
    simp [query]
  · intro n
    rw [query_seq_spec]
    simp [query]

/-! ## States reached through the device interface -/

theorem devReachable_reachable {cap : Int} {s : Queue} (h : DevReachable cap s) :
    Reachable cap s := by
  induction h with
  | start => exact Reachable.start
  | step_write s s' buffer r _ hw ih => exact reachable_dev_write buffer r ih hw
  | step_read s s' len r out _ hr ih => exact reachable_dev_read len out r ih hr

theorem dev_write_twoBytes : dev_write 4 init [1, 2] = some (2, twoBytesSample) := by
  have h0 := inv_init 4 (by decide)
  have h1 := inv_added 1 h0 (by decide)
  simp only [dev_write, dev_write_loop, add_inv_room 1 h0 (by decide),
    add_inv_room 2 h1 (by decide), twoBytesSample]
  rfl

theorem devReachable_twoBytes : DevReachable 4 twoBytesSample :=
  DevReachable.step_write init twoBytesSample [1, 2] 2 DevReachable.start dev_write_twoBytes

theorem dev_read_oneRead : dev_read 4 twoBytesSample 1 = some (1, [1], oneReadSample) := by
  have hinv := reachable_inv (by decide) (devReachable_reachable devReachable_twoBytes)
  have he : isEmpty twoBytesSample = false := by decide
  simp only [dev_read, dev_read_loop, he, get_inv hinv, oneReadSample]
  rfl

theorem devReachable_oneRead : DevReachable 4 oneReadSample :=
  DevReachable.step_read twoBytesSample oneReadSample 1 1 [1] devReachable_twoBytes
    dev_read_oneRead

/-- C14: representation invariant under mediated access.  In every state
reached from the initial state by any sequence of `dev_write` and `dev_read`
calls: `0 ≤ count ≤ MAX`, `0 ≤ frontP ≤ MAX-1`, `-1 ≤ backP ≤ MAX-1`, and
`(backP + 1) mod MAX = (frontP + count) mod MAX`. -/
theorem device_calls_keep_invariant (cap : Int) (hcap : 0 < cap) (s : Queue)
    (hs : DevReachable cap s) :
    (0 ≤ s.count ∧ s.count ≤ cap) ∧ (0 ≤ s.frontP ∧ s.frontP ≤ cap - 1) ∧
      (-1 ≤ s.backP ∧ s.backP ≤ cap - 1) ∧
      (s.backP + 1) % cap = (s.frontP + s.count) % cap := by
  obtain ⟨h1, h2, h3, h4, h5, h6, h7⟩ := reachable_inv hcap (devReachable_reachable hs)
  exact ⟨⟨h1, h2⟩, ⟨h3, by omega⟩, ⟨h5, by omega⟩, h7⟩

theorem device_calls_keep_invariant_witness :
    (0 ≤ oneReadSample.count ∧ oneReadSample.count ≤ 4) ∧
      (0 ≤ oneReadSample.frontP ∧ oneReadSample.frontP ≤ 4 - 1) ∧
      (-1 ≤ oneReadSample.backP ∧ oneReadSample.backP ≤ 4 - 1) ∧
      (oneReadSample.backP + 1) % 4 = (oneReadSample.frontP + oneReadSample.count) % 4 :=
  device_calls_keep_invariant 4 (by decide) oneReadSample devReachable_oneRead

/-! ## Array accesses of the transfer handlers -/

theorem add_eq_none_iff (cap : Int) (s : Queue) (b : Byte) :
    add cap s b = none ↔ ∃ i, add_index cap s = some i ∧ ¬ (0 ≤ i ∧ i < cap) := by
  unfold add add_index
  by_cases hfull : isFull cap s = true
  · simp [hfull]
  · simp only [hfull, Bool.not_false, if_true]
    split <;> simp_all

theorem get_eq_none_iff (cap : Int) (s : Queue) :
    get cap s = none ↔ ¬ (0 ≤ get_index s ∧ get_index s < cap) := by
  unfold get get_index
  split <;> simp_all

theorem add_index_inv {cap : Int} {s : Queue} (h : Inv cap s) (i : Int)
    (hi : add_index cap s = some i) : 0 ≤ i ∧ i ≤ cap - 1 := by
  obtain ⟨h1, h2, h3, h4, h5, h6, h7⟩ := h
  unfold add_index at hi
  by_cases hfull : isFull cap s = true
  · simp [hfull] at hi
  · simp only [hfull, Bool.not_false, if_true, Option.some.injEq] at hi
    by_cases hb : s.backP = cap - 1
    · simp [hb] at hi
      omega
    · simp [hb] at hi
      omega

theorem dev_read_get_calls_reachable {cap : Int} (hcap : 0 < cap) (n : Nat) {s : Queue}
    (hs : Reachable cap s) :
    ∀ q ∈ dev_read_get_calls cap n s, Reachable cap q ∧ isEmpty q = false := by
  induction n generalizing s with
  | zero => intro q hq; simp [dev_read_get_calls] at hq
  | succ n ih =>
    intro q hq
    cases he : isEmpty s with
    | true => simp [dev_read_get_calls, he] at hq
    | false =>
      have hpos : 0 < s.count := by
        have := (reachable_inv hcap hs).1
        have hne : s.count ≠ 0 := by simpa [isEmpty] using he
        omega
      simp only [dev_read_get_calls, he, Bool.not_false, if_true,
        get_inv (reachable_inv hcap hs), List.mem_cons] at hq
      rcases hq with rfl | hq
      · exact ⟨hs, he⟩
      · exact ih (reachable_got hcap hs hpos) q hq

theorem dev_write_add_calls_reachable {cap : Int} (bs : List Byte)
    {s : Queue} (hs : Reachable cap s) :
    ∀ p ∈ dev_write_add_calls cap bs s, Reachable cap p.1 := by
  induction bs generalizing s with
  | nil => intro p hp; simp [dev_write_add_calls] at hp
  | cons b rest ih =>
    intro p hp
    simp only [dev_write_add_calls, List.mem_cons] at hp
    rcases hp with rfl | hp
    · exact hs
    · cases hb : add cap s b with
      | none => simp [hb] at hp
      | some r =>
        obtain ⟨r1, s1⟩ := r
        simp only [hb] at hp
        exact ih (Reachable.step_add s s1 b r1 hs hb) p hp

/-- C15: guarded access is safe.  In every state reached by `dev_write` and
`dev_read` calls: `dev_read` runs to its end, and every state in which its
loop calls `get` has `count ≠ 0` and `frontP`, the index of the load, in
`[0, MAX-1]`; `dev_write` runs to its end, and in every state in which its loop
calls `add` the index of the store, if a store happens, is in `[0, MAX-1]`; the
very first `add`, with `backP = -1`, stores at index `0`.  So the failure
results of the embedding (`none` for an index out of bounds) never occur. -/
theorem guarded_access_is_safe (cap : Int) (hcap : 0 < cap) (s : Queue)
    (hs : DevReachable cap s) :
    (∀ n, (∃ r out s', dev_read cap s n = some (r, out, s')) ∧
      ∀ q ∈ dev_read_get_calls cap n s,
        q.count ≠ 0 ∧ (0 ≤ get_index q ∧ get_index q ≤ cap - 1) ∧
          ∃ d q', get cap q = some (d, q')) ∧
      (∀ bs, (∃ r s', dev_write cap s bs = some (r, s')) ∧
        ∀ p ∈ dev_write_add_calls cap bs s,
          (∀ i, add_index cap p.1 = some i → 0 ≤ i ∧ i ≤ cap - 1) ∧
            ∃ r q', add cap p.1 p.2 = some (r, q')) ∧
      add_index cap init = some 0 := by
  have hr := devReachable_reachable hs
  have hinv := reachable_inv hcap hr
  refine ⟨fun n => ⟨?_, ?_⟩, fun bs => ⟨?_, ?_⟩, ?_⟩
  · obtain ⟨s', h1, _⟩ := dev_read_loop_spec n [] 0 hinv
    exact ⟨_, _, s', h1⟩
  · intro q hq
    obtain ⟨hq1, hq2⟩ := dev_read_get_calls_reachable hcap n hr q hq
    have hqi := reachable_inv hcap hq1
    have h3 := hqi.2.2.1
    have h4 := hqi.2.2.2.1
    refine ⟨by simpa [isEmpty] using hq2, ⟨h3, ?_⟩, _, _, get_inv hqi⟩
    show q.frontP ≤ cap - 1
    omega
  · obtain ⟨s', h1, _⟩ := dev_write_loop_spec bs 0 hinv
    have hle : acceptedCount cap s bs.length ≤ bs.length := by
      unfold acceptedCount; omega
    have hw := h1 bs.length (by omega)
    rw [List.take_length] at hw
    exact ⟨_, s', hw⟩
  · intro p hp
    have hpi := reachable_inv hcap (dev_write_add_calls_reachable bs hr p hp)
    refine ⟨fun i hi => add_index_inv hpi i hi, ?_⟩
    by_cases hfull : p.1.count = cap
    · exact ⟨0, p.1, add_of_full cap p.1 p.2 hfull⟩
    · exact ⟨1, _, add_inv_room p.2 hpi (by have := hpi.2.1; omega)⟩
  · have hne : (0 : Int) ≠ cap := by omega
    have hne' : (-1 : Int) ≠ cap - 1 := by omega
    simp [add_index, isFull, init, hne, hne']

theorem guarded_access_is_safe_witness :
    (∀ n, (∃ r out s', dev_read 4 oneReadSample n = some (r, out, s')) ∧
      ∀ q ∈ dev_read_get_calls 4 n oneReadSample,
        q.count ≠ 0 ∧ (0 ≤ get_index q ∧ get_index q ≤ 4 - 1) ∧
          ∃ d q', get 4 q = some (d, q')) ∧
      (∀ bs, (∃ r s', dev_write 4 oneReadSample bs = some (r, s')) ∧
        ∀ p ∈ dev_write_add_calls 4 bs oneReadSample,
          (∀ i, add_index 4 p.1 = some i → 0 ≤ i ∧ i ≤ 4 - 1) ∧
            ∃ r q', add 4 p.1 p.2 = some (r, q')) ∧
      add_index 4 init = some 0 :=
  guarded_access_is_safe 4 (by decide) oneReadSample devReachable_oneRead

/-! ## Conservation, frame and composition of the transfers -/

theorem dev_read_of_empty (cap : Int) (s : Queue) (n : Nat) (h : s.count = 0) :
    dev_read cap s n = some (0, [], s) := by
  cases n with
  | zero => rfl
  | succ n => simp [dev_read, dev_read_loop, isEmpty, h]

theorem dev_write_loop_acc (cap : Int) (bs : List Byte) (s : Queue) (acc : Int) :
    dev_write_loop cap bs s acc =
      (dev_write_loop cap bs s 0).map (fun p => (acc + p.1, p.2)) := by
  induction bs generalizing s acc with
  | nil => simp [dev_write_loop]
  | cons b rest ih =>
    simp only [dev_write_loop]
    cases add cap s b with
    | none => rfl
    | some p =>
      obtain ⟨r, s1⟩ := p
      simp only []
      rw [ih s1 (acc + r), ih s1 (0 + r)]
      cases dev_write_loop cap rest s1 0 with
      | none => rfl
      | some q => simp [Int.add_assoc]

theorem dev_read_loop_acc (cap : Int) (n : Nat) (s : Queue) (out : List Byte) (acc : Int) :
    dev_read_loop cap n s out acc =
      (dev_read_loop cap n s [] 0).map (fun p => (acc + p.1, out ++ p.2.1, p.2.2)) := by
  induction n generalizing s out acc with
  | zero => simp [dev_read_loop]
  | succ n ih =>
    simp only [dev_read_loop]
    cases isEmpty s with
    | true => simp
    | false =>
      simp only [Bool.not_false, if_true]
      cases get cap s with
      | none => rfl
      | some p =>
        obtain ⟨d, s1⟩ := p
        simp only []
        rw [ih s1 (out ++ [d]) (acc + 1), ih s1 ([] ++ [d]) (0 + 1)]
        cases dev_read_loop cap n s1 [] 0 with
        | none => rfl
        | some q => simp [Int.add_assoc]

theorem dev_read_loop_add (cap : Int) (a b : Nat) (s : Queue) (out : List Byte) (acc : Int) :
    dev_read_loop cap (a + b) s out acc =
      (dev_read_loop cap a s out acc).bind (fun p => dev_read_loop cap b p.2.2 p.2.1 p.1) := by
  induction a generalizing s out acc with
  | zero => simp [dev_read_loop]
  | succ a ih =>
    rw [Nat.add_right_comm]
    simp only [dev_read_loop]
    cases he : isEmpty s with
    | true =>
      cases b with
      | zero => simp [dev_read_loop]
      | succ b => simp [dev_read_loop, he]
    | false =>
      simp only [Bool.not_false, if_true]
      cases get cap s with
      | none => rfl
      | some p =>
        obtain ⟨d, s1⟩ := p
        simp only []
        exact ih s1 (out ++ [d]) (acc + 1)

/-- C16: conservation and frame of the transfers.  In every reachable state:
`dev_write` returns some `k ≥ 0`, increases `count` by exactly `k` and leaves
`frontP` unchanged; `dev_read` returns some `k ≥ 0` with `k` bytes, decreases
`count` by exactly `k` and leaves `backP` and every cell of `bufferD`
unchanged; hence `dev_write` on a full queue, `dev_read` on an empty queue and
`dev_read` with length `0` return `0` and leave the whole state unchanged. -/
theorem transfers_conserve_count (cap : Int) (hcap : 0 < cap) (s : Queue)
    (hs : Reachable cap s) :
    (∀ bs, ∃ k s', dev_write cap s bs = some (k, s') ∧ 0 ≤ k ∧
      s'.count = s.count + k ∧ s'.frontP = s.frontP) ∧
    (∀ n, ∃ k out s', dev_read cap s n = some (k, out, s') ∧ 0 ≤ k ∧ (out.length : Int) = k ∧
      s'.count = s.count - k ∧ s'.backP = s.backP ∧ ∀ j, s'.bufferD j = s.bufferD j) ∧
    (s.count = cap → ∀ bs, dev_write cap s bs = some (0, s)) ∧
    (s.count = 0 → ∀ n, dev_read cap s n = some (0, [], s)) ∧
    dev_read cap s 0 = some (0, [], s) := by
  have hinv := reachable_inv hcap hs
  have hc0 := hinv.1
  have hc1 := hinv.2.1
  refine ⟨fun bs => ?_, fun n => ?_, fun hfull bs => dev_write_loop_full cap bs s 0 hfull,
    fun hz n => dev_read_of_empty cap s n hz, rfl⟩
  · obtain ⟨s', h1, _, _, h4, h5⟩ := dev_write_loop_spec bs 0 hinv
    have hle : acceptedCount cap s bs.length ≤ bs.length := by
      unfold acceptedCount; omega
    have hge : 0 ≤ acceptedCount cap s bs.length := by
      unfold acceptedCount; omega
    have hw := h1 bs.length (by omega)
    rw [List.take_length, Int.zero_add] at hw
    exact ⟨_, s', hw, hge, h4, h5⟩
  · obtain ⟨s', h1, _, _, h4, h5, h6⟩ := dev_read_loop_spec n [] 0 hinv
    rw [Int.zero_add, List.nil_append] at h1
    refine ⟨_, _, s', h1, by omega, ?_, h4, h5, fun j => by rw [h6]⟩
    rw [List.length_take, contents_length]
    unfold readCount
    omega

theorem transfers_conserve_count_witness :
    (∀ bs, ∃ k s', dev_write 4 oneReadSample bs = some (k, s') ∧ 0 ≤ k ∧
      s'.count = oneReadSample.count + k ∧ s'.frontP = oneReadSample.frontP) ∧
    (∀ n, ∃ k out s', dev_read 4 oneReadSample n = some (k, out, s') ∧ 0 ≤ k ∧
      (out.length : Int) = k ∧ s'.count = oneReadSample.count - k ∧
      s'.backP = oneReadSample.backP ∧ ∀ j, s'.bufferD j = oneReadSample.bufferD j) ∧
    (oneReadSample.count = 4 → ∀ bs, dev_write 4 oneReadSample bs = some (0, oneReadSample)) ∧
    (oneReadSample.count = 0 → ∀ n, dev_read 4 oneReadSample n = some (0, [], oneReadSample)) ∧
    dev_read 4 oneReadSample 0 = some (0, [], oneReadSample) :=
  transfers_conserve_count 4 (by decide) oneReadSample
    (devReachable_reachable devReachable_oneRead)

/-- C17: writes compose.  In every reachable state, for all byte sequences
`xs` and `ys`, `dev_write xs` followed by `dev_write ys` ends in the same state
as the single call `dev_write (xs ++ ys)`, and the two returned counts add up
to the count the single call returns. -/
theorem writes_compose (cap : Int) (hcap : 0 < cap) (s : Queue) (hs : Reachable cap s)
    (xs ys : List Byte) :
    ∃ k1 s1 k2 s2, dev_write cap s xs = some (k1, s1) ∧ dev_write cap s1 ys = some (k2, s2) ∧
      dev_write cap s (xs ++ ys) = some (k1 + k2, s2) := by
  have hinv := reachable_inv hcap hs
  have hc1 := hinv.2.1
  obtain ⟨s1, h1, h2, _⟩ := dev_write_loop_spec xs 0 hinv
  have hle : acceptedCount cap s xs.length ≤ xs.length := by
    unfold acceptedCount; omega
  have hw1 := h1 xs.length (by omega)
  rw [List.take_length, Int.zero_add] at hw1
  have hc1' := h2.2.1
  obtain ⟨s2, g1, _⟩ := dev_write_loop_spec ys 0 h2
  have hle2 : acceptedCount cap s1 ys.length ≤ ys.length := by
    unfold acceptedCount; omega
  have hw2 := g1 ys.length (by omega)
  rw [List.take_length, Int.zero_add] at hw2
  refine ⟨_, s1, _, s2, hw1, hw2, ?_⟩
  unfold dev_write
  rw [dev_write_loop_append, hw1, Option.some_bind, dev_write_loop_acc, hw2]
  rfl

theorem writes_compose_witness :
    ∃ k1 s1 k2 s2, dev_write 4 oneReadSample [7, 8] = some (k1, s1) ∧
      dev_write 4 s1 [9, 10, 11] = some (k2, s2) ∧
      dev_write 4 oneReadSample ([7, 8] ++ [9, 10, 11]) = some (k1 + k2, s2) :=
  writes_compose 4 (by decide) oneReadSample (devReachable_reachable devReachable_oneRead)
    [7, 8] [9, 10, 11]

/-- C18: reads compose.  In every reachable state, for all lengths `a` and
`b`, `dev_read a` followed by `dev_read b` gives two results whose
concatenation is the result of the single call `dev_read (a + b)` from the same
starting state (the returned counts add up as well), and both ways end in the
same state. -/
theorem reads_compose (cap : Int) (hcap : 0 < cap) (s : Queue) (hs : Reachable cap s)
    (a b : Nat) :
    ∃ k1 out1 s1 k2 out2 s2, dev_read cap s a = some (k1, out1, s1) ∧
      dev_read cap s1 b = some (k2, out2, s2) ∧
      dev_read cap s (a + b) = some (k1 + k2, out1 ++ out2, s2) := by
  have hinv := reachable_inv hcap hs
  obtain ⟨s1, h1, h2, _⟩ := dev_read_loop_spec a [] 0 hinv
  obtain ⟨s2, g1, _⟩ := dev_read_loop_spec b [] 0 h2
  refine ⟨_, _, s1, _, _, s2, h1, g1, ?_⟩
  unfold dev_read
  rw [dev_read_loop_add, h1, Option.some_bind, dev_read_loop_acc, g1]
  rfl

theorem reads_compose_witness :
    ∃ k1 out1 s1 k2 out2 s2, dev_read 4 twoBytesSample 1 = some (k1, out1, s1) ∧
      dev_read 4 s1 3 = some (k2, out2, s2) ∧
      dev_read 4 twoBytesSample (1 + 3) = some (k1 + k2, out1 ++ out2, s2) :=
  reads_compose 4 (by decide) twoBytesSample (devReachable_reachable devReachable_twoBytes) 1 3

end CDD
